import Mathlib

/-!
Verification of the rmake build model (src/rmake.rs, src/main.rs).

The development shallowly embeds the core of the program:
the YAML-to-model extraction (`extract_targets_and_variables`,
`RMakeTarget::from_mapping`), the variable-expansion engine
(`RMakeUtils::find_and_replace`, `expand_commands` and the regex
`\$\(([^)]+)\)` together with `Regex::replace` semantics for the
replacement string), and the dependency resolver (`chain_commands`
with its inner recursive `find`, and `run`).

Strings are modelled as lists of characters (`Str`).  External
effects (environment lookup, child-process execution) are modelled
as parameters of a context `Ctx`.  Fatal `RMakeError!`/`panic!`
exits and `expect`/`unwrap` failures are modelled as `Except.error`
values, and the potentially non-terminating recursion of
`find_and_replace` (cyclic variable references) and of `find`
is modelled with an explicit fuel parameter; fuel exhaustion is the
distinguished error `RErr.fuelOut` (for the resolver, a lemma below
shows that the result is independent of the fuel once the fuel
exceeds the number of targets, which is the termination argument of
the original code).
-/

set_option maxHeartbeats 1000000

/-- Strings of the model: a Rust `String` as a list of characters. -/
abbrev Str := List Char

/-- Converts a Lean string literal into a model string. -/
def str (s : String) : Str := s.data

/-- Splits a list at the first `')'`: returns the characters strictly
before it and the characters strictly after it.  `none` when no `')'`
occurs.  This mirrors how the regex `[^)]+\)` consumes its body. -/
def splitAtParen : Str → Option (Str × Str)
  | [] => none
  | c :: cs =>
    if c = ')' then some ([], cs)
    else (splitAtParen cs).map (fun p => (c :: p.1, p.2))

/-- Prepends a character to the prefix component of a match result. -/
def shiftMatch (c : Char) (r : Option (Str × Str × Str)) : Option (Str × Str × Str) :=
  r.map (fun x => (c :: x.1, x.2.1, x.2.2))

/-- First match of the regex `\$\(([^)]+)\)` in a string, scanning left to
right: returns `(prefix, body, suffix)` where the matched text is
`"$(" ++ body ++ ")"`, `body` is non-empty and free of `')'`, and
`prefix`/`suffix` are the surrounding text.  A `"$("` with no closing
paren, or with an immediately following `')'` (empty body), is not a
match and scanning resumes at the next position, as the regex engine
does. -/
def findFirst : Str → Option (Str × Str × Str)
  | [] => none
  | c :: cs =>
    if c = '$' then
      match cs with
      | c1 :: cs1 =>
        if c1 = '(' then
          match splitAtParen cs1 with
          | some ([], _) => shiftMatch c (findFirst cs)
          | some (b :: bs, post) => some ([], b :: bs, post)
          | none => shiftMatch c (findFirst cs)
        else shiftMatch c (findFirst cs)
      | [] => none
    else shiftMatch c (findFirst cs)

/-- Fuelled version of the match iterator: the list of bodies of all
successive non-overlapping matches, in order. -/
def findIterF : Nat → Str → List Str
  | 0, _ => []
  | f + 1, s =>
    match findFirst s with
    | none => []
    | some (_, body, post) => body :: findIterF f post

/-- Bodies of all matches of `\$\(([^)]+)\)` in `s`, left to right, as
`Regex::find_iter` produces them (each scan resumes after the previous
match).  The fuel `s.length + 1` is always sufficient because every
match consumes at least one character of the remaining text. -/
def findIter (s : Str) : List Str := findIterF (s.length + 1) s

/-- Splits on runs of whitespace, discarding empties: the model of Rust
`str::split_whitespace`. -/
def splitWs : Str → List Str
  | [] => []
  | c :: cs =>
    if c.isWhitespace then splitWs cs
    else
      match cs, splitWs cs with
      | c2 :: _, w :: ws => if c2.isWhitespace then [c] :: w :: ws else (c :: w) :: ws
      | _, r => [c] :: r

/-- Splits at every newline keeping empty pieces: the model of Rust
`str::split('\n')`; the result always has one more piece than there are
newlines, hence is never empty. -/
def splitNl : Str → List Str
  | [] => [[]]
  | c :: cs =>
    if c = '\n' then [] :: splitNl cs
    else
      match splitNl cs with
      | w :: ws => (c :: w) :: ws
      | [] => [[c]]

/-- Word characters of the regex crate's replacement-string syntax. -/
def isWordChar (c : Char) : Bool := c.isAlphanum || c = '_'

/-- Numeric value of a digit string. -/
def digitsToNat (cs : Str) : Nat :=
  cs.foldl (fun a c => a * 10 + (c.toNat - '0'.toNat)) 0

/-- Value of capture reference `name` for a match of `\$\(([^)]+)\)`
whose whole text is `whole` and whose group 1 is `body`: group `0` is
the whole match, group `1` the body, and any other index or any
non-numeric name is an absent group, replaced by the empty string. -/
def capValue (whole body : Str) (name : Str) : Str :=
  if name.all Char.isDigit then
    match digitsToNat name with
    | 0 => whole
    | 1 => body
    | _ => []
  else []

/-- Fuelled expansion of a replacement string, following the regex
crate's rules used by `Regex::replace`: `$$` is a literal `$`;
`$name` (longest run of word characters) and `${name}` substitute the
capture group `name` (absent groups become empty); a `$` followed by
anything else is literal.  The fuel `r.length + 1` always suffices. -/
def expandReplF (whole body : Str) : Nat → Str → Str
  | 0, r => r
  | _ + 1, [] => []
  | f + 1, c :: rest =>
    if c = '$' then
      match rest with
      | [] => ['$']
      | d :: rest2 =>
        if d = '$' then '$' :: expandReplF whole body f rest2
        else if d = '{' then
          match rest2.dropWhile isWordChar with
          | '}' :: rest3 =>
            if rest2.takeWhile isWordChar = [] then '$' :: expandReplF whole body f rest
            else capValue whole body (rest2.takeWhile isWordChar) ++ expandReplF whole body f rest3
          | _ => '$' :: expandReplF whole body f rest
        else if isWordChar d then
          capValue whole body (rest.takeWhile isWordChar) ++
            expandReplF whole body f (rest.dropWhile isWordChar)
        else '$' :: expandReplF whole body f rest
    else c :: expandReplF whole body f rest

/-- Expansion of a replacement string `r` against a match with whole
text `whole` and group 1 `body`. -/
def expandRepl (whole body r : Str) : Str := expandReplF whole body (r.length + 1) r

/-- The whole matched text `"$(" ++ body ++ ")"` of a match with the
given body. -/
def wholeOf (body : Str) : Str := '$' :: '(' :: (body ++ [')'])

/-- Model of `re.replace(&value, to)` for the rmake regex: replaces the
first match of `value` (if any) with the expansion of the replacement
string `to`. -/
def replaceFirst (value rep : Str) : Str :=
  match findFirst value with
  | none => value
  | some (pre, body, post) => pre ++ expandRepl (wholeOf body) body rep ++ post

/-! ## The program model -/

/-- External collaborators of the expansion engine: the process
environment (`std::env::var`) and the child-process runner of the
`shell` meta-command (`Command::output`, with its standard output
already decoded as text; `none` models a spawn or decode failure,
which the code turns into a fatal `expect`/`unwrap`). -/
structure Ctx where
  env : Str → Option Str
  shell : Str → List Str → Option Str

/-- Fatal outcomes of the program, one per `RMakeError!` exit or
`panic!`/`expect`/`unwrap` failure reachable in the modelled core;
`fuelOut` is the extra outcome of the fuel embedding standing for
non-termination of the source recursion. -/
inductive RErr where
  /-- `key.as_str().unwrap()` on a non-string root key. -/
  | badKey
  /-- RMakeError "A target must have cmd field!". -/
  | missingCmd
  /-- RMakeError "Command in the Sequence is not String". -/
  | cmdNotString
  /-- RMakeError "Command list is not Sequence nor String !". -/
  | cmdBadShape
  /-- panic "The Yml file should be Mapping, check the format!". -/
  | notMapping
  /-- panic "No target is defined in the input file!". -/
  | noTargets
  /-- RMakeError "Variable error: {} Is not supported yet!". -/
  | unknownMeta (w : Str)
  /-- expect "Cannot execute command!" or non-UTF-8 output. -/
  | shellFail
  /-- RMakeError "No rule to make target". -/
  | noRule
  /-- Fuel exhaustion of the embedding (source would not terminate). -/
  | fuelOut
deriving DecidableEq

/-- A Target record: name, optional dependency names, command list
(`RMakeTarget` in the source). -/
structure RMakeTarget where
  name : Str
  deps : Option (List Str)
  cmds : List Str
deriving DecidableEq

/-- Variables as an association list from name to value, standing for
`HashMap<String, RMakeVariable>` (the YAML root mapping has unique
keys, so the map structure is faithfully an association list). -/
abbrev RMakeVariables := List (Str × Str)

/-- Targets as an association list from name to Target, in document
order, standing for `HashMap<String, RMakeTarget>`. -/
abbrev RMakeTargets := List (Str × RMakeTarget)

/-- Lookup in the variable map (`vars.get(name)`). -/
def lookupV (vs : RMakeVariables) (w : Str) : Option Str :=
  (vs.find? (fun p => p.1 == w)).map (fun p => p.2)

/-- Lookup in the target map (`targets.get(name)`). -/
def lookupT (ts : RMakeTargets) (n : Str) : Option RMakeTarget :=
  (ts.find? (fun p => p.1 == n)).map (fun p => p.2)

/-- Environment fallback of the expansion engine: the default empty
replacement when the variable is absent, the environment value when
present (`if let Ok(env_val) = std::env::var(..)`). -/
def envOr (ctx : Ctx) (w : Str) : Str := (ctx.env w).getD []

/-- Maps a fallible function over a list, stopping at the first fatal
error: the translation of a Rust loop that collects results and whose
body may abort the process. -/
def exceptMap {a b : Type} (f : a → Except RErr b) : List a → Except RErr (List b)
  | [] => .ok []
  | x :: xs =>
    match f x with
    | .error e => .error e
    | .ok y =>
      match exceptMap f xs with
      | .error e => .error e
      | .ok ys => .ok (y :: ys)

/-- Computation of the replacement string `to` for one matched body in
`find_and_replace`: tokenize the body on whitespace; a single word is a
variable lookup (recursively expanded via `recur`) with environment
fallback and empty-string default; several words dispatch on the
meta-command keyword, where `"shell"` runs word two as a program with
all remaining words but the last as arguments, `"whildcard"` (the
keyword as spelled in `RMakeCoreCommand::from_str`) warns and yields
the empty string, and anything else is the fatal unknown-meta error.
A body with no words leaves the default empty replacement. -/
def farBody (ctx : Ctx) (vars : Option RMakeVariables)
    (recur : Str → Except RErr Str) (body : Str) : Except RErr Str :=
  match splitWs body with
  | [] => .ok []
  | [w] =>
    match vars with
    | some vs =>
      match lookupV vs w with
      | some v => recur v
      | none => .ok (envOr ctx w)
    | none => .ok (envOr ctx w)
  | w :: p :: rest =>
    if w = str "shell" then
      match ctx.shell p rest.dropLast with
      | some out => .ok out
      | none => .error .shellFail
    else if w = str "whildcard" then .ok []
    else .error (.unknownMeta w)

/-- The replacement loop of `find_and_replace`: the list of bodies was
computed once from the original string (`re.find_iter(&value.clone())`),
and each iteration replaces the first match of the current, already
rewritten string (`value = re.replace(&value, to)`). -/
def farLoop (ctx : Ctx) (vars : Option RMakeVariables)
    (recur : Str → Except RErr Str) : List Str → Str → Except RErr Str
  | [], v => .ok v
  | b :: rest, v =>
    match farBody ctx vars recur b with
    | .error e => .error e
    | .ok rep => farLoop ctx vars recur rest (replaceFirst v rep)

/-- Model of `RMakeUtils::find_and_replace`: iterate over the matches
of the original string, computing and substituting a replacement for
each.  The fuel bounds the depth of recursive variable expansion,
which is unbounded in the source (cyclic variable references make the
source recurse forever; here they exhaust the fuel). -/
def find_and_replace (ctx : Ctx) (vars : Option RMakeVariables) :
    Nat → Str → Except RErr Str
  | 0, _ => .error .fuelOut
  | fuel + 1, value => farLoop ctx vars (find_and_replace ctx vars fuel) (findIter value) value

/-- Model of `RMakeTarget::expand_commands`: expand every command of
the target and store the results back. -/
def expand_commands (ctx : Ctx) (vars : Option RMakeVariables) (fuel : Nat)
    (t : RMakeTarget) : Except RErr RMakeTarget :=
  match exceptMap (find_and_replace ctx vars fuel) t.cmds with
  | .error e => .error e
  | .ok cmds' => .ok { t with cmds := cmds' }

/-- Generic YAML values as `serde_yaml` exposes them: string scalars
are distinguished from other scalars (numbers, booleans, null),
sequences and mappings; mappings preserve document order. -/
inductive YValue where
  | str (s : Str)
  | int (n : Int)
  | bool (b : Bool)
  | null
  | seq (xs : List YValue)
  | map (m : List (YValue × YValue))

/-- Lookup of a string key in a YAML mapping (`mapping.get("cmd")`,
`Mapping::contains_key`). -/
def yLookup (m : List (YValue × YValue)) (k : Str) : Option YValue :=
  (m.find? (fun p => match p.1 with | .str s => s == k | _ => false)).map (fun p => p.2)

/-- Model of `RMakeTarget::from_mapping`: a missing `cmd` key is fatal;
`dep` normalizes a string to a one-element list, keeps the string
elements of a sequence in order, and anything else is an empty list
(stored as `none` when empty); `cmd` splits a string scalar on
newlines, requires every element of a sequence to be a string (fatal
otherwise), and any other shape is fatal. -/
def from_mapping (name : Str) (m : List (YValue × YValue)) : Except RErr RMakeTarget :=
  if (yLookup m (str "cmd")).isNone then .error .missingCmd
  else
    let depsStrings : List Str :=
      match yLookup m (str "dep") with
      | some (.str s) => [s]
      | some (.seq vs) => vs.filterMap (fun v => match v with | .str s => some s | _ => none)
      | _ => []
    match
      (match yLookup m (str "cmd") with
       | some (.str s) => Except.ok (splitNl s)
       | some (.seq vs) =>
         exceptMap (fun v => match v with
           | YValue.str s => Except.ok s
           | _ => Except.error RErr.cmdNotString) vs
       | _ => Except.error RErr.cmdBadShape)
    with
    | .error e => .error e
    | .ok cmdsList =>
      .ok { name := name,
            deps := if depsStrings = [] then none else some depsStrings,
            cmds := cmdsList }

/-- Model of `RMake::extract_targets_and_variables`: walk the root
mapping in document order; a non-string key is the `unwrap` panic; a
mapping value becomes a Target via `from_mapping` (whose fatal errors
abort the walk), a string scalar becomes a Variable, and any other
value is ignored. -/
def extract_targets_and_variables :
    List (YValue × YValue) → Except RErr (RMakeTargets × RMakeVariables)
  | [] => .ok ([], [])
  | (k, v) :: rest =>
    match k with
    | .str kn =>
      match v with
      | .map tm =>
        match from_mapping kn tm with
        | .error e => .error e
        | .ok t =>
          match extract_targets_and_variables rest with
          | .error e => .error e
          | .ok (ts, vs) => .ok ((kn, t) :: ts, vs)
      | .str s =>
        match extract_targets_and_variables rest with
        | .error e => .error e
        | .ok (ts, vs) => .ok (ts, (kn, s) :: vs)
      | _ => extract_targets_and_variables rest
    | _ => .error .badKey

/-- The loaded build: its targets and optionally its variable map
(`RMake` in the source; the source field name for `varMap` is not a
legal Lean identifier). -/
structure RMake where
  targets : RMakeTargets
  varMap : Option RMakeVariables
deriving DecidableEq

/-- Model of `RMake::new` from the parsed YAML root value (the file
read and YAML parse of `load_yml` are external): the root must be a
mapping, extraction must yield at least one target, empty variable
maps become `none`, and every target's commands are expanded. -/
def rmakeNew (ctx : Ctx) (fuel : Nat) (root : YValue) : Except RErr RMake :=
  match root with
  | .map m =>
    match extract_targets_and_variables m with
    | .error e => .error e
    | .ok (ts, vs) =>
      if ts.isEmpty then .error .noTargets
      else
        let vars := if vs.isEmpty then none else some vs
        match exceptMap (fun p => (expand_commands ctx vars fuel p.2).map (fun t => (p.1, t))) ts with
        | .error e => .error e
        | .ok ts' => .ok { targets := ts', varMap := vars }
  | _ => .error .notMapping

/-- The dependency loop inside `find`: walk the dependency names in
order; unknown names are skipped, already-visited names are skipped,
and a fresh name is marked visited and recursed into, its emitted
commands accumulated left to right. -/
def depLoop (ts : RMakeTargets)
    (recurF : RMakeTarget → List Str → List Str × List Str) :
    List Str → List Str → List Str × List Str
  | [], vis => ([], vis)
  | d :: rest, vis =>
    match lookupT ts d with
    | some sub =>
      if d ∈ vis then depLoop ts recurF rest vis
      else
        let r1 := recurF sub (d :: vis)
        let r2 := depLoop ts recurF rest r1.2
        (r1.1 ++ r2.1, r2.2)
    | none => depLoop ts recurF rest vis

/-- Model of the recursive `find` inside `chain_commands`: process the
dependencies, then append the target's own commands; the visited set
(`HashMap<String, bool>`) is threaded as a list of names.  The source
recursion needs no fuel because every recursive call first marks a
fresh target visited; the fuel embedding is shown below to be stable
once the fuel exceeds the number of targets. -/
def findVisit (ts : RMakeTargets) : Nat → RMakeTarget → List Str → List Str × List Str
  | 0, _, vis => ([], vis)
  | fuel + 1, t, vis =>
    let r := depLoop ts (findVisit ts fuel) (t.deps.getD []) vis
    (r.1 ++ t.cmds, r.2)

/-- Model of `RMake::chain_commands`: run `find` from the goal with an
empty visited set. -/
def chain_commands (rm : RMake) (mainTarget : RMakeTarget) : List Str :=
  (findVisit rm.targets (rm.targets.length + 1) mainTarget []).1

/-- Model of `RMake::run`: look the goal up by name and forward the
chained command list (the runner shim logs each command in order). -/
def rmakeRun (rm : RMake) (name : Str) : Except RErr (List Str) :=
  match lookupT rm.targets name with
  | some t => .ok (chain_commands rm t)
  | none => .error .noRule

/-- Trace variant of `depLoop`, recording the visited targets instead
of their commands; a specification device linked to `depLoop` by
`findVisit_eq_trace` below. -/
def depLoopT (ts : RMakeTargets)
    (recurF : RMakeTarget → List Str → List RMakeTarget × List Str) :
    List Str → List Str → List RMakeTarget × List Str
  | [], vis => ([], vis)
  | d :: rest, vis =>
    match lookupT ts d with
    | some sub =>
      if d ∈ vis then depLoopT ts recurF rest vis
      else
        let r1 := recurF sub (d :: vis)
        let r2 := depLoopT ts recurF rest r1.2
        (r1.1 ++ r2.1, r2.2)
    | none => depLoopT ts recurF rest vis

/-- Trace variant of `findVisit`: the emission trace, one entry per
target whose command block is emitted, in emission order. -/
def findTrace (ts : RMakeTargets) : Nat → RMakeTarget → List Str → List RMakeTarget × List Str
  | 0, _, vis => ([], vis)
  | fuel + 1, t, vis =>
    let r := depLoopT ts (findTrace ts fuel) (t.deps.getD []) vis
    (r.1 ++ [t], r.2)

/-! ## Concrete builds of the specification scenarios -/

/-- Decidable equality of fallible results, for concrete evaluation. -/
instance {e a : Type} [DecidableEq e] [DecidableEq a] : DecidableEq (Except e a) := fun x y =>
  match x, y with
  | .error u, .error v => decidable_of_iff (u = v) (by simp)
  | .ok u, .ok v => decidable_of_iff (u = v) (by simp)
  | .error _, .ok _ => isFalse (by simp)
  | .ok _, .error _ => isFalse (by simp)

/-- A context with no environment and no runnable programs. -/
def ctx0 : Ctx := { env := fun _ => none, shell := fun _ _ => none }

/-- Target `a: {dep: b, cmd: "A"}` of the cyclic scenario. -/
def tgtCycA : RMakeTarget := { name := str "a", deps := some [str "b"], cmds := [str "A"] }

/-- Target `b: {dep: a, cmd: "B"}` of the cyclic scenario. -/
def tgtCycB : RMakeTarget := { name := str "b", deps := some [str "a"], cmds := [str "B"] }

/-- The two-target cyclic build `a: {dep: b, cmd: "A"}`,
`b: {dep: a, cmd: "B"}`. -/
def cycRM : RMake :=
  { targets := [(str "a", tgtCycA), (str "b", tgtCycB)], varMap := none }

/-- The YAML root of the cyclic build. -/
def cycRoot : YValue :=
  .map [(.str (str "a"), .map [(.str (str "dep"), .str (str "b")),
                               (.str (str "cmd"), .str (str "A"))]),
        (.str (str "b"), .map [(.str (str "dep"), .str (str "a")),
                               (.str (str "cmd"), .str (str "B"))])]

/-- Target `d: {dep: [b, c], cmd: "D"}` of the diamond scenario. -/
def tgtDmdD : RMakeTarget :=
  { name := str "d", deps := some [str "b", str "c"], cmds := [str "D"] }

/-- The diamond build `a: {cmd: "A"}`, `b: {dep: a, cmd: "B"}`,
`c: {dep: a, cmd: "C"}`, `d: {dep: [b, c], cmd: "D"}`. -/
def dmdRM : RMake :=
  { targets :=
      [(str "a", { name := str "a", deps := none, cmds := [str "A"] }),
       (str "b", { name := str "b", deps := some [str "a"], cmds := [str "B"] }),
       (str "c", { name := str "c", deps := some [str "a"], cmds := [str "C"] }),
       (str "d", tgtDmdD)],
    varMap := none }

/-- The S4 build: `CC: "gcc"`, `FLAGS: "-O2 $(EXTRA)"`, `EXTRA: "-g"`,
`t: {cmd: "$(CC) $(FLAGS) main.c"}`. -/
def s4Root : YValue :=
  .map [(.str (str "CC"), .str (str "gcc")),
        (.str (str "FLAGS"), .str (str "-O2 $(EXTRA)")),
        (.str (str "EXTRA"), .str (str "-g")),
        (.str (str "t"), .map [(.str (str "cmd"), .str (str "$(CC) $(FLAGS) main.c"))])]

/-- A context whose environment defines `HOME=/u/x` only. -/
def ctxHome : Ctx :=
  { env := fun n => if n = str "HOME" then some (str "/u/x") else none,
    shell := fun _ _ => none }

/-- The S5 build: no variables, `t: {cmd: "cd $(HOME)"}`. -/
def s5Root : YValue :=
  .map [(.str (str "t"), .map [(.str (str "cmd"), .str (str "cd $(HOME)"))])]

/-! ## Predicates and concrete inputs used by the claim theorems -/

/-- A string with no dollar sign (hence no `$(...)` occurrence). -/
def noDollar (s : Str) : Prop := '$' ∉ s

/-- Decidability of dollar-freeness, for concrete strings. -/
instance (s : Str) : Decidable (noDollar s) :=
  inferInstanceAs (Decidable ('$' ∉ s))

/-- Strings in which every `'$'` opens a well-formed `$(BODY)`
occurrence: the string is either dollar-free, or a dollar-free prefix
followed by a match and a remainder of the same shape. -/
inductive GoodD : Str → Prop where
  | free {s : Str} : '$' ∉ s → GoodD s
  | seg {a b rest : Str} : '$' ∉ a → b ≠ [] → ')' ∉ b → GoodD rest →
      GoodD (a ++ '$' :: '(' :: (b ++ ')' :: rest))

/-- The environment and the shell produce only dollar-free values. -/
def CleanCtx (ctx : Ctx) : Prop :=
  (∀ n v, ctx.env n = some v → noDollar v) ∧
  (∀ p a o, ctx.shell p a = some o → noDollar o)

/-- Every variable value is dollar-free. -/
def CleanVars (vars : Option RMakeVariables) : Prop :=
  ∀ vs, vars = some vs → ∀ p ∈ vs, noDollar p.2

/-- Whether some match body of `s` is a single word naming a defined
variable: the "resolvable `$(NAME)` form" of the specification. -/
def hasResolvableB (vars : Option RMakeVariables) (s : Str) : Bool :=
  (findIter s).any (fun b =>
    match splitWs b, vars with
    | [w], some vs => (lookupV vs w).isSome
    | _, _ => false)

/-- Well-formedness of a target map: every target is stored under its
own name (extraction always produces such maps). -/
def WFT (ts : RMakeTargets) : Prop := ∀ p ∈ ts, p.2.name = p.1

/-- Decidability of map well-formedness, for concrete builds. -/
instance (ts : RMakeTargets) : Decidable (WFT ts) :=
  inferInstanceAs (Decidable (∀ p ∈ ts, p.2.name = p.1))

/-- One dependency edge of the target graph: `b` is among the declared
dependencies of the target stored at `a`. -/
def DepStep (ts : RMakeTargets) (a b : Str) : Prop :=
  ∃ t, lookupT ts a = some t ∧ b ∈ t.deps.getD []

/-- Number of distinct target names not yet visited: the decreasing
measure of the resolver's recursion. -/
def unvisitedCount (ts : RMakeTargets) (vis : List Str) : Nat :=
  ((ts.map Prod.fst).dedup.filter (fun k => decide (k ∉ vis))).length

/-- Variables of the expansion-closure counterexample: `A` holds a bare
dollar sign, `B` is an ordinary defined variable. -/
def c2Vars : RMakeVariables := [(str "A", str "$"), (str "B", str "v")]

/-- Root document of the expansion-closure counterexample:
`A: "$"`, `B: "v"`, `t: {cmd: "$(A)(B)"}`. -/
def c2Root : YValue :=
  .map [(.str (str "A"), .str (str "$")),
        (.str (str "B"), .str (str "v")),
        (.str (str "t"), .map [(.str (str "cmd"), .str (str "$(A)(B)"))])]

/-- Root document with a well-formed target preceding a non-string
key. -/
def c10Root : YValue :=
  .map [(.str (str "a"), .map []), (.int 1, .str (str "x"))]

/-- An entry of the root mapping that extraction accepts: a string key
whose value, when it is a mapping, parses as a target. -/
def entryOk (kv : YValue × YValue) : Prop :=
  ∃ s, kv.1 = YValue.str s ∧ ∀ mm, kv.2 = YValue.map mm → ∃ t, from_mapping s mm = .ok t

/-- A context able to run exactly one program, `ls -a`, with output
`OUT`. -/
def ctxEcho : Ctx :=
  { env := fun _ => none,
    shell := fun p a => if p = str "ls" ∧ a = [str "-a"] then some (str "OUT") else none }

/-! ## Lemmas about the regex primitives -/

theorem splitAtParen_cons_ne (c : Char) (cs : Str) (h : c ≠ ')') :
    splitAtParen (c :: cs) = (splitAtParen cs).map (fun p => (c :: p.1, p.2)) := by
  simp [splitAtParen, h]

theorem splitAtParen_eq (l : Str) :
    ∀ a p, splitAtParen l = some (a, p) → l = a ++ ')' :: p ∧ ')' ∉ a := by
  induction l with
  | nil => intro a p h; simp [splitAtParen] at h
  | cons c cs ih =>
    intro a p h
    by_cases hc : c = ')'
    · subst hc
      simp [splitAtParen] at h
      obtain ⟨rfl, rfl⟩ := h
      simp
    · cases hx : splitAtParen cs with
      | none => rw [splitAtParen_cons_ne c cs hc, hx] at h; simp at h
      | some x =>
        rw [splitAtParen_cons_ne c cs hc, hx] at h
        simp only [Option.map_some', Option.some.injEq, Prod.mk.injEq] at h
        obtain ⟨ha2, hp2⟩ := h
        obtain ⟨hcs1, hcs2⟩ := ih x.1 x.2 (by rw [hx])
        constructor
        · rw [← ha2, hcs1, ← hp2]; simp
        · rw [← ha2]
          intro hmem
          rcases List.mem_cons.mp hmem with h1 | h1
          · exact hc h1.symm
          · exact hcs2 h1

theorem splitAtParen_append (b rest : Str) (hb : ')' ∉ b) :
    splitAtParen (b ++ ')' :: rest) = some (b, rest) := by
  induction b with
  | nil => simp [splitAtParen]
  | cons c cs ih =>
    have hc : c ≠ ')' := fun h => hb (h ▸ List.mem_cons_self c cs)
    have hcs : ')' ∉ cs := fun h => hb (List.mem_cons_of_mem c h)
    simp [splitAtParen_cons_ne c _ hc, ih hcs]

theorem findFirst_not_dollar (c : Char) (cs : Str) (h : c ≠ '$') :
    findFirst (c :: cs) = shiftMatch c (findFirst cs) := by
  simp [findFirst, h]

theorem findFirst_dollar_not_paren (c1 : Char) (cs1 : Str) (h : c1 ≠ '(') :
    findFirst ('$' :: c1 :: cs1) = shiftMatch '$' (findFirst (c1 :: cs1)) := by
  simp [findFirst, h]

theorem findFirst_paren_match (cs1 : Str) (b0 : Char) (bs post : Str)
    (h : splitAtParen cs1 = some (b0 :: bs, post)) :
    findFirst ('$' :: '(' :: cs1) = some ([], b0 :: bs, post) := by
  simp [findFirst, h]

theorem findFirst_paren_empty (cs1 q : Str) (h : splitAtParen cs1 = some ([], q)) :
    findFirst ('$' :: '(' :: cs1) = shiftMatch '$' (findFirst ('(' :: cs1)) := by
  simp [findFirst, h]

theorem findFirst_paren_none (cs1 : Str) (h : splitAtParen cs1 = none) :
    findFirst ('$' :: '(' :: cs1) = shiftMatch '$' (findFirst ('(' :: cs1)) := by
  simp [findFirst, h]

theorem shiftMatch_some (c : Char) (r : Option (Str × Str × Str)) (pre b post : Str)
    (h : shiftMatch c r = some (pre, b, post)) :
    ∃ pre', r = some (pre', b, post) ∧ pre = c :: pre' := by
  cases r with
  | none => simp [shiftMatch] at h
  | some x =>
    obtain ⟨x1, x2, x3⟩ := x
    simp only [shiftMatch, Option.map_some', Option.some.injEq, Prod.mk.injEq] at h
    exact ⟨x1, by rw [h.2.1, h.2.2], h.1.symm⟩

theorem findFirst_none (s : Str) (h : '$' ∉ s) : findFirst s = none := by
  induction s with
  | nil => rfl
  | cons c cs ih =>
    have hc : c ≠ '$' := fun hh => h (hh ▸ List.mem_cons_self c cs)
    have hcs : '$' ∉ cs := fun hh => h (List.mem_cons_of_mem c hh)
    rw [findFirst_not_dollar c cs hc, ih hcs]
    rfl

theorem findFirst_decomp (a b rest : Str) (ha : '$' ∉ a) (hb : b ≠ []) (hbp : ')' ∉ b) :
    findFirst (a ++ '$' :: '(' :: (b ++ ')' :: rest)) = some (a, b, rest) := by
  induction a with
  | nil =>
    cases b with
    | nil => exact absurd rfl hb
    | cons b0 bs =>
      have hsp := splitAtParen_append (b0 :: bs) rest hbp
      exact findFirst_paren_match _ b0 bs rest hsp
  | cons c cs ih =>
    have hc : c ≠ '$' := fun hh => ha (hh ▸ List.mem_cons_self c cs)
    have hcs : '$' ∉ cs := fun hh => ha (List.mem_cons_of_mem c hh)
    rw [List.cons_append, findFirst_not_dollar c _ hc, ih hcs]
    rfl

theorem findFirst_shape (s : Str) :
    ∀ pre b post, findFirst s = some (pre, b, post) →
      s = pre ++ '$' :: '(' :: (b ++ ')' :: post) := by
  induction s with
  | nil => intro pre b post h; simp [findFirst] at h
  | cons c cs ih =>
    intro pre b post h
    by_cases hc : c = '$'
    · subst hc
      cases cs with
      | nil => simp [findFirst] at h
      | cons c1 cs1 =>
        by_cases hc1 : c1 = '('
        · subst hc1
          cases hsp : splitAtParen cs1 with
          | none =>
            rw [findFirst_paren_none cs1 hsp] at h
            obtain ⟨pre', hfind, rfl⟩ := shiftMatch_some _ _ _ _ _ h
            have := ih pre' b post hfind
            rw [List.cons_append, ← this]
          | some x =>
            obtain ⟨xa, xp⟩ := x
            cases xa with
            | nil =>
              rw [findFirst_paren_empty cs1 xp hsp] at h
              obtain ⟨pre', hfind, rfl⟩ := shiftMatch_some _ _ _ _ _ h
              have := ih pre' b post hfind
              rw [List.cons_append, ← this]
            | cons q0 qs =>
              rw [findFirst_paren_match cs1 q0 qs xp hsp] at h
              simp only [Option.some.injEq, Prod.mk.injEq] at h
              obtain ⟨rfl, hb2, hp2⟩ := h
              obtain ⟨hshape, _⟩ := splitAtParen_eq cs1 (q0 :: qs) xp hsp
              rw [List.nil_append, hshape, hb2, hp2]
        · rw [findFirst_dollar_not_paren c1 cs1 hc1] at h
          obtain ⟨pre', hfind, rfl⟩ := shiftMatch_some _ _ _ _ _ h
          have := ih pre' b post hfind
          rw [List.cons_append, ← this]
    · rw [findFirst_not_dollar c cs hc] at h
      obtain ⟨pre', hfind, rfl⟩ := shiftMatch_some _ _ _ _ _ h
      have := ih pre' b post hfind
      rw [List.cons_append, ← this]

theorem findFirst_post_lt (s pre b post : Str) (h : findFirst s = some (pre, b, post)) :
    post.length < s.length := by
  have := findFirst_shape s pre b post h
  subst this
  simp
  omega

theorem findIterF_step (f : Nat) (s pre b post : Str) (h : findFirst s = some (pre, b, post)) :
    findIterF (f + 1) s = b :: findIterF f post := by
  simp [findIterF, h]

theorem findIterF_congr (f : Nat) : ∀ (g : Nat) (s : Str), s.length < f → s.length < g →
    findIterF f s = findIterF g s := by
  induction f with
  | zero => intro g s h _; omega
  | succ f ih =>
    intro g s hf hg
    cases g with
    | zero => omega
    | succ g =>
      cases hfind : findFirst s with
      | none => simp [findIterF, hfind]
      | some x =>
        obtain ⟨pre, b, post⟩ := x
        have hl := findFirst_post_lt s pre b post hfind
        rw [findIterF_step f s pre b post hfind, findIterF_step g s pre b post hfind,
          ih g post (by omega) (by omega)]

theorem findIter_eq_nil (s : Str) (h : '$' ∉ s) : findIter s = [] := by
  simp [findIter, findIterF, findFirst_none s h]

theorem findIter_decomp (a b rest : Str) (ha : '$' ∉ a) (hb : b ≠ []) (hbp : ')' ∉ b) :
    findIter (a ++ '$' :: '(' :: (b ++ ')' :: rest)) = b :: findIter rest := by
  have hf := findFirst_decomp a b rest ha hb hbp
  have hlen : rest.length < (a ++ '$' :: '(' :: (b ++ ')' :: rest)).length := by
    simp; omega
  rw [findIter, findIterF_step _ _ _ _ _ hf, findIter,
    findIterF_congr _ (rest.length + 1) rest (by omega) (by omega)]

theorem expandReplF_noDollar (whole body : Str) (f : Nat) :
    ∀ r : Str, '$' ∉ r → expandReplF whole body f r = r := by
  induction f with
  | zero => intro r _; rfl
  | succ f ih =>
    intro r h
    cases r with
    | nil => rfl
    | cons c rest =>
      have hc : c ≠ '$' := fun hh => h (hh ▸ List.mem_cons_self c rest)
      have hrest : '$' ∉ rest := fun hh => h (List.mem_cons_of_mem c hh)
      simp [expandReplF, hc, ih rest hrest]

theorem expandRepl_noDollar (whole body r : Str) (h : '$' ∉ r) :
    expandRepl whole body r = r :=
  expandReplF_noDollar whole body (r.length + 1) r h

theorem replaceFirst_decomp (a b rest rep : Str) (ha : '$' ∉ a) (hb : b ≠ [])
    (hbp : ')' ∉ b) (hrep : '$' ∉ rep) :
    replaceFirst (a ++ '$' :: '(' :: (b ++ ')' :: rest)) rep = (a ++ rep) ++ rest := by
  simp [replaceFirst, findFirst_decomp a b rest ha hb hbp,
    expandRepl_noDollar _ _ _ hrep, List.append_assoc]

/-! ## Lemmas for the expansion-closure analysis -/

theorem exceptMap_ok_mem {a b : Type} (f : a → Except RErr b) :
    ∀ (l : List a) (l' : List b), exceptMap f l = .ok l' →
      ∀ y ∈ l', ∃ x ∈ l, f x = .ok y := by
  intro l
  induction l with
  | nil =>
    intro l' h y hy
    simp [exceptMap] at h
    subst h
    simp at hy
  | cons x xs ih =>
    intro l' h y hy
    rw [exceptMap] at h
    cases hf : f x with
    | error e => rw [hf] at h; simp at h
    | ok y0 =>
      rw [hf] at h
      cases hm : exceptMap f xs with
      | error e => rw [hm] at h; simp at h
      | ok ys =>
        rw [hm] at h
        simp at h
        subst h
        rcases List.mem_cons.mp hy with h1 | h1
        · exact ⟨x, List.mem_cons_self x xs, by rw [hf, h1]⟩
        · obtain ⟨x', hx', hfx'⟩ := ih ys hm y h1
          exact ⟨x', List.mem_cons_of_mem x hx', hfx'⟩

theorem exceptMap_ok_length {a b : Type} (f : a → Except RErr b) :
    ∀ (l : List a) (l' : List b), exceptMap f l = .ok l' → l'.length = l.length := by
  intro l
  induction l with
  | nil => intro l' h; simp [exceptMap] at h; subst h; rfl
  | cons x xs ih =>
    intro l' h
    rw [exceptMap] at h
    cases hf : f x with
    | error e => rw [hf] at h; simp at h
    | ok y0 =>
      rw [hf] at h
      cases hm : exceptMap f xs with
      | error e => rw [hm] at h; simp at h
      | ok ys =>
        rw [hm] at h
        simp at h
        subst h
        simp [ih ys hm]

theorem lookupV_mem (vs : RMakeVariables) (w v : Str) (h : lookupV vs w = some v) :
    ∃ p, p ∈ vs ∧ p.2 = v := by
  unfold lookupV at h
  cases hf : vs.find? (fun p => p.1 == w) with
  | none => rw [hf] at h; simp at h
  | some pr =>
    rw [hf] at h
    simp at h
    exact ⟨pr, List.mem_of_find?_eq_some hf, h⟩

theorem farBody_noDollar (ctx : Ctx) (vars : Option RMakeVariables)
    (recur : Str → Except RErr Str) (body rep : Str)
    (hctx : CleanCtx ctx) (hvars : CleanVars vars)
    (hrec : ∀ v r, noDollar v → recur v = .ok r → noDollar r)
    (h : farBody ctx vars recur body = .ok rep) : noDollar rep := by
  cases hsp : splitWs body with
  | nil =>
    simp only [farBody, hsp] at h
    simp at h
    subst h
    intro hmem
    simp at hmem
  | cons w ws =>
    cases ws with
    | nil =>
      simp only [farBody, hsp] at h
      cases hv : vars with
      | none =>
        rw [hv] at h
        simp at h
        subst h
        unfold envOr
        cases he : ctx.env w with
        | none => intro hmem; simp at hmem
        | some e => exact hctx.1 w e he
      | some vs =>
        rw [hv] at h
        simp only [] at h
        cases hl : lookupV vs w with
        | some v =>
          rw [hl] at h
          obtain ⟨pr, hpr, hpv⟩ := lookupV_mem vs w v hl
          exact hrec v rep (hpv ▸ hvars vs hv pr hpr) h
        | none =>
          rw [hl] at h
          simp at h
          subst h
          unfold envOr
          cases he : ctx.env w with
          | none => intro hmem; simp at hmem
          | some e => exact hctx.1 w e he
    | cons p rest =>
      simp only [farBody, hsp] at h
      by_cases hw : w = str "shell"
      · rw [if_pos hw] at h
        cases hs : ctx.shell p rest.dropLast with
        | none => rw [hs] at h; simp at h
        | some out =>
          rw [hs] at h
          simp at h
          subst h
          exact hctx.2 p rest.dropLast out hs
      · rw [if_neg hw] at h
        by_cases hw2 : w = str "whildcard"
        · rw [if_pos hw2] at h
          simp at h
          subst h
          intro hmem
          simp at hmem
        · rw [if_neg hw2] at h
          simp at h

theorem farLoop_noDollar (ctx : Ctx) (vars : Option RMakeVariables)
    (recur : Str → Except RErr Str)
    (hctx : CleanCtx ctx) (hvars : CleanVars vars)
    (hrec : ∀ v r, noDollar v → recur v = .ok r → noDollar r) :
    ∀ (s : Str), GoodD s → ∀ (D r : Str), '$' ∉ D →
      farLoop ctx vars recur (findIter s) (D ++ s) = .ok r → noDollar r := by
  intro s hgood
  induction hgood with
  | @free s0 hfree =>
    intro D r hD h
    rw [findIter_eq_nil _ hfree] at h
    simp [farLoop] at h
    subst h
    intro hmem
    rcases List.mem_append.mp hmem with h1 | h1
    · exact hD h1
    · exact hfree h1
  | @seg a b rest ha hb hbp hrest ih =>
    intro D r hD h
    rw [findIter_decomp _ _ _ ha hb hbp] at h
    rw [farLoop] at h
    cases hfb : farBody ctx vars recur b with
    | error e => rw [hfb] at h; simp at h
    | ok rep =>
      rw [hfb] at h
      simp only [] at h
      have hrepD : noDollar rep :=
        farBody_noDollar ctx vars recur b rep hctx hvars hrec hfb
      have hDa : '$' ∉ D ++ a := by
        intro hmem
        rcases List.mem_append.mp hmem with h1 | h1
        · exact hD h1
        · exact ha h1
      have hassoc : D ++ (a ++ '$' :: '(' :: (b ++ ')' :: rest)) =
          (D ++ a) ++ '$' :: '(' :: (b ++ ')' :: rest) := by
        simp [List.append_assoc]
      rw [hassoc, replaceFirst_decomp (D ++ a) b rest rep hDa hb hbp hrepD] at h
      have hDr : '$' ∉ (D ++ a) ++ rep := by
        intro hmem
        rcases List.mem_append.mp hmem with h1 | h1
        · exact hDa h1
        · exact hrepD h1
      exact ih ((D ++ a) ++ rep) r hDr h

theorem find_and_replace_noDollar (ctx : Ctx) (vars : Option RMakeVariables)
    (hctx : CleanCtx ctx) (hvars : CleanVars vars) :
    ∀ (fuel : Nat) (s r : Str), GoodD s →
      find_and_replace ctx vars fuel s = .ok r → noDollar r := by
  intro fuel
  induction fuel with
  | zero => intro s r _ h; simp [find_and_replace] at h
  | succ fuel ih =>
    intro s r hgood h
    rw [find_and_replace] at h
    rw [← List.nil_append s] at h
    exact farLoop_noDollar ctx vars (find_and_replace ctx vars fuel) hctx hvars
      (fun v r' hv hr => ih v r' (GoodD.free hv) hr) s hgood [] r (by simp) h

theorem hasResolvableB_of_noDollar (vars : Option RMakeVariables) (s : Str)
    (h : noDollar s) : hasResolvableB vars s = false := by
  simp [hasResolvableB, findIter_eq_nil s h]

theorem expand_commands_noDollar (ctx : Ctx) (vars : Option RMakeVariables)
    (fuel : Nat) (t t' : RMakeTarget)
    (hctx : CleanCtx ctx) (hvars : CleanVars vars)
    (hcmds : ∀ c ∈ t.cmds, GoodD c)
    (h : expand_commands ctx vars fuel t = .ok t') :
    ∀ c' ∈ t'.cmds, noDollar c' ∧ hasResolvableB vars c' = false := by
  intro c' hc'
  unfold expand_commands at h
  cases hm : exceptMap (find_and_replace ctx vars fuel) t.cmds with
  | error e => rw [hm] at h; simp at h
  | ok cmds' =>
    rw [hm] at h
    simp at h
    obtain ⟨c, hc, hfc⟩ := exceptMap_ok_mem _ _ _ hm c' (by rw [← h] at hc'; exact hc')
    have hnd := find_and_replace_noDollar ctx vars hctx hvars fuel c c' (hcmds c hc) hfc
    exact ⟨hnd, hasResolvableB_of_noDollar vars c' hnd⟩

/-! ## Lemmas for the dependency resolver -/

theorem lookupT_mem (ts : RMakeTargets) (d : Str) (sub : RMakeTarget)
    (h : lookupT ts d = some sub) : (d, sub) ∈ ts := by
  unfold lookupT at h
  cases hf : ts.find? (fun p => p.1 == d) with
  | none => rw [hf] at h; simp at h
  | some pr =>
    rw [hf] at h
    simp at h
    have hmem := List.mem_of_find?_eq_some hf
    have hp := List.find?_some hf
    simp at hp
    have : pr = (d, sub) := by
      obtain ⟨p1, p2⟩ := pr
      simp at hp h
      simp [hp, h]
    rw [← this]
    exact hmem

theorem lookupT_name (ts : RMakeTargets) (hwf : WFT ts) (d : Str) (sub : RMakeTarget)
    (h : lookupT ts d = some sub) : sub.name = d :=
  hwf (d, sub) (lookupT_mem ts d sub h)

theorem lookupT_keys (ts : RMakeTargets) (d : Str) (sub : RMakeTarget)
    (h : lookupT ts d = some sub) : d ∈ ts.map Prod.fst :=
  List.mem_map.mpr ⟨(d, sub), lookupT_mem ts d sub h, rfl⟩

theorem depLoopT_link (ts : RMakeTargets) (fuel : Nat)
    (hIH : ∀ t vis, findVisit ts fuel t vis =
      (((findTrace ts fuel t vis).1.map (fun x => x.cmds)).flatten,
       (findTrace ts fuel t vis).2)) :
    ∀ (ds vis : List Str),
      depLoop ts (findVisit ts fuel) ds vis =
        (((depLoopT ts (findTrace ts fuel) ds vis).1.map (fun x => x.cmds)).flatten,
         (depLoopT ts (findTrace ts fuel) ds vis).2) := by
  intro ds
  induction ds with
  | nil => intro vis; simp [depLoop, depLoopT]
  | cons d rest ih =>
    intro vis
    simp only [depLoop, depLoopT]
    cases hl : lookupT ts d with
    | none => exact ih vis
    | some sub =>
      by_cases hv : d ∈ vis
      · simp only [if_pos hv]
        exact ih vis
      · simp only [if_neg hv]
        rw [hIH sub (d :: vis), ih ((findTrace ts fuel sub (d :: vis)).2)]
        simp [List.flatten_append]

theorem findVisit_link (ts : RMakeTargets) :
    ∀ (fuel : Nat) (t : RMakeTarget) (vis : List Str),
      findVisit ts fuel t vis =
        (((findTrace ts fuel t vis).1.map (fun x => x.cmds)).flatten,
         (findTrace ts fuel t vis).2) := by
  intro fuel
  induction fuel with
  | zero => intro t vis; simp [findVisit, findTrace]
  | succ fuel ih =>
    intro t vis
    simp only [findVisit, findTrace]
    rw [depLoopT_link ts fuel ih]
    simp [List.flatten_append]

theorem depLoopT_growth (ts : RMakeTargets)
    (recurF : RMakeTarget → List Str → List RMakeTarget × List Str)
    (hg : ∀ t vis, ∃ fr, (recurF t vis).2 = fr ++ vis) :
    ∀ (ds vis : List Str), ∃ fr, (depLoopT ts recurF ds vis).2 = fr ++ vis := by
  intro ds
  induction ds with
  | nil => intro vis; exact ⟨[], rfl⟩
  | cons d rest ih =>
    intro vis
    simp only [depLoopT]
    cases hl : lookupT ts d with
    | none => exact ih vis
    | some sub =>
      by_cases hv : d ∈ vis
      · simp only [if_pos hv]
        exact ih vis
      · simp only [if_neg hv]
        obtain ⟨f1, h1⟩ := hg sub (d :: vis)
        obtain ⟨f2, h2⟩ := ih ((recurF sub (d :: vis)).2)
        refine ⟨f2 ++ (f1 ++ [d]), ?_⟩
        rw [h2, h1]
        simp [List.append_assoc]

theorem findTrace_growth (ts : RMakeTargets) :
    ∀ (fuel : Nat) (t : RMakeTarget) (vis : List Str),
      ∃ fr, (findTrace ts fuel t vis).2 = fr ++ vis := by
  intro fuel
  induction fuel with
  | zero => intro t vis; exact ⟨[], rfl⟩
  | succ fuel ih =>
    intro t vis
    simp only [findTrace]
    exact depLoopT_growth ts _ (fun t' v' => ih t' v') _ vis

theorem depLoopT_count (ts : RMakeTargets) (hwf : WFT ts) (fuel : Nat)
    (hIH : ∀ (t : RMakeTarget) (vis : List Str), ∃ fr,
      (findTrace ts fuel t vis).2 = fr ++ vis ∧ (∀ x ∈ fr, x ∉ vis) ∧
      ∀ n : Str, ((findTrace ts fuel t vis).1.map (fun x => x.name)).count n ≤
        (if n = t.name then 1 else 0) + (if n ∈ fr then 1 else 0)) :
    ∀ (ds vis : List Str), ∃ fr,
      (depLoopT ts (findTrace ts fuel) ds vis).2 = fr ++ vis ∧ (∀ x ∈ fr, x ∉ vis) ∧
      ∀ n : Str, ((depLoopT ts (findTrace ts fuel) ds vis).1.map (fun x => x.name)).count n ≤
        (if n ∈ fr then 1 else 0) := by
  intro ds
  induction ds with
  | nil =>
    intro vis
    refine ⟨[], rfl, by simp, ?_⟩
    intro n
    simp [depLoopT]
  | cons d rest ih =>
    intro vis
    simp only [depLoopT]
    cases hl : lookupT ts d with
    | none => exact ih vis
    | some sub =>
      by_cases hv : d ∈ vis
      · simp only [if_pos hv]
        exact ih vis
      · simp only [if_neg hv]
        obtain ⟨f1, hg1, hd1, hc1⟩ := hIH sub (d :: vis)
        obtain ⟨f2, hg2, hd2, hc2⟩ := ih ((findTrace ts fuel sub (d :: vis)).2)
        have hname : sub.name = d := lookupT_name ts hwf d sub hl
        have hdf1 : d ∉ f1 := fun hmem => hd1 d hmem (List.mem_cons_self d vis)
        have hvisf1 : ∀ x ∈ f1, x ∉ vis := fun x hx hxv =>
          hd1 x hx (List.mem_cons_of_mem d hxv)
        have hf2f1 : ∀ x ∈ f2, x ∉ f1 := by
          intro x hx hxf1
          apply hd2 x hx
          rw [hg1]
          exact List.mem_append_left _ hxf1
        have hf2d : d ∉ f2 := by
          intro hmem
          apply hd2 d hmem
          rw [hg1]
          exact List.mem_append_right _ (List.mem_cons_self d vis)
        have hf2vis : ∀ x ∈ f2, x ∉ vis := by
          intro x hx hxv
          apply hd2 x hx
          rw [hg1]
          exact List.mem_append_right _ (List.mem_cons_of_mem d hxv)
        refine ⟨f2 ++ (f1 ++ [d]), ?_, ?_, ?_⟩
        · rw [hg2, hg1]
          simp [List.append_assoc]
        · intro x hx
          rcases List.mem_append.mp hx with h1 | h1
          · exact hf2vis x h1
          · rcases List.mem_append.mp h1 with h2 | h2
            · exact hvisf1 x h2
            · simp at h2
              rw [h2]
              exact hv
        · intro n
          simp only [List.map_append, List.count_append]
          have b1 := hc1 n
          have b2 := hc2 n
          rw [hname] at b1
          have hmem : (n ∈ f2 ++ (f1 ++ [d])) ↔ (n ∈ f2 ∨ n ∈ f1 ∨ n = d) := by
            simp [List.mem_append]
          by_cases h3 : n = d
          · have h1 : n ∉ f1 := fun hh => hdf1 (h3 ▸ hh)
            have h2 : n ∉ f2 := fun hh => hf2d (h3 ▸ hh)
            rw [if_pos h3, if_neg h1] at b1
            rw [if_neg h2] at b2
            rw [if_pos (hmem.mpr (Or.inr (Or.inr h3)))]
            omega
          · rw [if_neg h3] at b1
            by_cases h1 : n ∈ f1
            · have h2 : n ∉ f2 := fun hh => hf2f1 n hh h1
              rw [if_pos h1] at b1
              rw [if_neg h2] at b2
              rw [if_pos (hmem.mpr (Or.inr (Or.inl h1)))]
              omega
            · rw [if_neg h1] at b1
              by_cases h2 : n ∈ f2
              · rw [if_pos h2] at b2
                rw [if_pos (hmem.mpr (Or.inl h2))]
                omega
              · rw [if_neg h2] at b2
                rw [if_neg (fun hh => by
                      rcases hmem.mp hh with hx | hx | hx
                      · exact h2 hx
                      · exact h1 hx
                      · exact h3 hx)]
                omega

theorem findTrace_count (ts : RMakeTargets) (hwf : WFT ts) :
    ∀ (fuel : Nat) (t : RMakeTarget) (vis : List Str), ∃ fr,
      (findTrace ts fuel t vis).2 = fr ++ vis ∧ (∀ x ∈ fr, x ∉ vis) ∧
      ∀ n : Str, ((findTrace ts fuel t vis).1.map (fun x => x.name)).count n ≤
        (if n = t.name then 1 else 0) + (if n ∈ fr then 1 else 0) := by
  intro fuel
  induction fuel with
  | zero =>
    intro t vis
    refine ⟨[], rfl, by simp, ?_⟩
    intro n
    simp [findTrace]
  | succ fuel ih =>
    intro t vis
    obtain ⟨fr, hg, hd, hc⟩ := depLoopT_count ts hwf fuel ih (t.deps.getD []) vis
    refine ⟨fr, hg, hd, ?_⟩
    intro n
    have hcn := hc n
    simp only [findTrace, List.map_append, List.count_append]
    by_cases h3 : n = t.name
    · subst h3
      have h1 : List.count t.name (List.map (fun x => x.name) [t]) = 1 := by simp
      rw [h1, if_pos rfl]
      omega
    · have h1 : List.count n (List.map (fun x => x.name) [t]) = 0 := by
        simp [List.count_cons, Ne.symm h3]
      rw [h1, if_neg h3]
      omega

theorem filter_length_mono (p q : Str → Bool) (l : List Str)
    (h : ∀ a, q a = true → p a = true) :
    (l.filter q).length ≤ (l.filter p).length := by
  induction l with
  | nil => simp
  | cons x xs ih =>
    by_cases hq : q x = true
    · have hp := h x hq
      simp [List.filter_cons, hq, hp]
      omega
    · simp only [List.filter_cons]
      rw [if_neg (by simp [hq])]
      by_cases hp : p x = true
      · rw [if_pos (by simp [hp])]
        simp
        omega
      · rw [if_neg (by simp [hp])]
        exact ih

theorem filter_length_strict (p q : Str → Bool) (l : List Str) (a : Str)
    (h : ∀ x, q x = true → p x = true) (ha : a ∈ l) (hpa : p a = true) (hqa : q a = false) :
    (l.filter q).length < (l.filter p).length := by
  induction l with
  | nil => simp at ha
  | cons x xs ih =>
    rcases List.mem_cons.mp ha with h1 | h1
    · subst h1
      simp only [List.filter_cons]
      rw [if_neg (by simp [hqa]), if_pos (by simp [hpa])]
      simp
      exact Nat.lt_succ_of_le (filter_length_mono p q xs h)
    · by_cases hq : q x = true
      · have hp := h x hq
        simp only [List.filter_cons]
        rw [if_pos (by simp [hq]), if_pos (by simp [hp])]
        simp
        exact ih h1
      · simp only [List.filter_cons]
        rw [if_neg (by simp [hq])]
        by_cases hp : p x = true
        · rw [if_pos (by simp [hp])]
          simp
          exact Nat.lt_succ_of_lt (ih h1)
        · rw [if_neg (by simp [hp])]
          exact ih h1

theorem unvisited_mono (ts : RMakeTargets) (vis vis' : List Str)
    (h : ∀ x ∈ vis, x ∈ vis') :
    unvisitedCount ts vis' ≤ unvisitedCount ts vis := by
  apply filter_length_mono
  intro a ha
  simp at ha ⊢
  exact fun hmem => ha (h a hmem)

theorem unvisited_strict (ts : RMakeTargets) (d : Str) (vis : List Str)
    (hd : d ∈ ts.map Prod.fst) (hv : d ∉ vis) :
    unvisitedCount ts (d :: vis) < unvisitedCount ts vis := by
  apply filter_length_strict _ _ _ d
  · intro x hx
    simp at hx ⊢
    exact hx.2
  · exact List.mem_dedup.mpr hd
  · simp [hv]
  · simp

theorem findVisit_congr (ts : RMakeTargets) :
    ∀ (u : Nat) (t : RMakeTarget) (vis : List Str) (f g : Nat),
      unvisitedCount ts vis = u → u < f → u < g →
      findVisit ts f t vis = findVisit ts g t vis := by
  intro u
  induction u using Nat.strong_induction_on with
  | _ u ihu =>
    intro t vis f g hu hf hg
    cases f with
    | zero => omega
    | succ f' =>
      cases g with
      | zero => omega
      | succ g' =>
        simp only [findVisit]
        have inner : ∀ (ds vis₂ : List Str), unvisitedCount ts vis₂ ≤ u →
            depLoop ts (findVisit ts f') ds vis₂ = depLoop ts (findVisit ts g') ds vis₂ := by
          intro ds
          induction ds with
          | nil => intro vis₂ _; rfl
          | cons d rest ihd =>
            intro vis₂ hv₂
            simp only [depLoop]
            cases hl : lookupT ts d with
            | none => exact ihd vis₂ hv₂
            | some sub =>
              by_cases hdv : d ∈ vis₂
              · simp only [if_pos hdv]
                exact ihd vis₂ hv₂
              · simp only [if_neg hdv]
                have hu' : unvisitedCount ts (d :: vis₂) < unvisitedCount ts vis₂ :=
                  unvisited_strict ts d vis₂ (lookupT_keys ts d sub hl) hdv
                have heq1 : findVisit ts f' sub (d :: vis₂) = findVisit ts g' sub (d :: vis₂) :=
                  ihu (unvisitedCount ts (d :: vis₂)) (by omega) sub (d :: vis₂) f' g'
                    rfl (by omega) (by omega)
                rw [heq1]
                obtain ⟨fr, hfr⟩ : ∃ fr,
                    (findVisit ts g' sub (d :: vis₂)).2 = fr ++ (d :: vis₂) := by
                  rw [findVisit_link]
                  exact findTrace_growth ts g' sub (d :: vis₂)
                have hvmono : unvisitedCount ts ((findVisit ts g' sub (d :: vis₂)).2) ≤ u := by
                  have h1 : unvisitedCount ts ((findVisit ts g' sub (d :: vis₂)).2) ≤
                      unvisitedCount ts vis₂ := by
                    apply unvisited_mono
                    intro x hx
                    rw [hfr]
                    exact List.mem_append_right _ (List.mem_cons_of_mem d hx)
                  omega
                rw [ihd _ hvmono]
        rw [inner (t.deps.getD []) vis (le_of_eq hu)]

theorem findTrace_self_mem (ts : RMakeTargets) (f : Nat) (t : RMakeTarget)
    (vis : List Str) : t ∈ (findTrace ts (f + 1) t vis).1 := by
  simp [findTrace]

theorem depLoopT_cons_none (ts : RMakeTargets)
    (recurF : RMakeTarget → List Str → List RMakeTarget × List Str)
    (d : Str) (rest vis : List Str) (hl : lookupT ts d = none) :
    depLoopT ts recurF (d :: rest) vis = depLoopT ts recurF rest vis := by
  simp [depLoopT, hl]

theorem depLoopT_cons_visited (ts : RMakeTargets)
    (recurF : RMakeTarget → List Str → List RMakeTarget × List Str)
    (d : Str) (sub : RMakeTarget) (rest vis : List Str)
    (hl : lookupT ts d = some sub) (hv : d ∈ vis) :
    depLoopT ts recurF (d :: rest) vis = depLoopT ts recurF rest vis := by
  simp [depLoopT, hl, hv]

theorem depLoopT_cons_new (ts : RMakeTargets)
    (recurF : RMakeTarget → List Str → List RMakeTarget × List Str)
    (d : Str) (sub : RMakeTarget) (rest vis : List Str)
    (hl : lookupT ts d = some sub) (hv : d ∉ vis) :
    depLoopT ts recurF (d :: rest) vis =
      ((recurF sub (d :: vis)).1 ++
         (depLoopT ts recurF rest ((recurF sub (d :: vis)).2)).1,
       (depLoopT ts recurF rest ((recurF sub (d :: vis)).2)).2) := by
  simp [depLoopT, hl, hv]

theorem findTrace_visits_traced (ts : RMakeTargets) (hwf : WFT ts) :
    ∀ (u : Nat) (t : RMakeTarget) (vis : List Str) (f : Nat),
      unvisitedCount ts vis = u → u < f →
      ∀ x, x ∈ (findTrace ts f t vis).2 → x ∉ vis →
        x ∈ (findTrace ts f t vis).1.map (fun y => y.name) := by
  intro u
  induction u using Nat.strong_induction_on with
  | _ u ihu =>
    intro t vis f hu hf x hx hxv
    cases f with
    | zero => omega
    | succ f' =>
      have inner : ∀ (ds vis₂ : List Str), unvisitedCount ts vis₂ ≤ u →
          ∀ y, y ∈ (depLoopT ts (findTrace ts f') ds vis₂).2 → y ∉ vis₂ →
            y ∈ (depLoopT ts (findTrace ts f') ds vis₂).1.map (fun z => z.name) := by
        intro ds
        induction ds with
        | nil =>
          intro vis₂ _ y hy hyv
          exact absurd hy hyv
        | cons d rest ihd =>
          intro vis₂ hv₂ y hy hyv
          cases hl : lookupT ts d with
          | none =>
            rw [depLoopT_cons_none ts _ d rest vis₂ hl] at hy ⊢
            exact ihd vis₂ hv₂ y hy hyv
          | some sub =>
            by_cases hdv : d ∈ vis₂
            · rw [depLoopT_cons_visited ts _ d sub rest vis₂ hl hdv] at hy ⊢
              exact ihd vis₂ hv₂ y hy hyv
            · rw [depLoopT_cons_new ts _ d sub rest vis₂ hl hdv] at hy ⊢
              have hu' : unvisitedCount ts (d :: vis₂) < unvisitedCount ts vis₂ :=
                unvisited_strict ts d vis₂ (lookupT_keys ts d sub hl) hdv
              by_cases hyr1 : y ∈ (findTrace ts f' sub (d :: vis₂)).2
              · by_cases hyd : y = d
                · subst hyd
                  obtain ⟨f'', hf''⟩ : ∃ f'', f' = f'' + 1 := ⟨f' - 1, by omega⟩
                  have hmem : sub ∈ (findTrace ts f' sub (y :: vis₂)).1 := by
                    rw [hf'']
                    exact findTrace_self_mem ts f'' sub (y :: vis₂)
                  have hy1 : y ∈ (findTrace ts f' sub (y :: vis₂)).1.map (fun z => z.name) :=
                    List.mem_map.mpr ⟨sub, hmem, lookupT_name ts hwf y sub hl⟩
                  simp only [List.map_append]
                  exact List.mem_append_left _ hy1
                · have hy1 : y ∈ (findTrace ts f' sub (d :: vis₂)).1.map (fun z => z.name) :=
                    ihu (unvisitedCount ts (d :: vis₂)) (by omega) sub (d :: vis₂) f' rfl
                      (by omega) y hyr1
                      (by intro hmem
                          rcases List.mem_cons.mp hmem with h1 | h1
                          · exact hyd h1
                          · exact hyv h1)
                  simp only [List.map_append]
                  exact List.mem_append_left _ hy1
              · obtain ⟨fr, hfr⟩ := findTrace_growth ts f' sub (d :: vis₂)
                have hvmono : unvisitedCount ts ((findTrace ts f' sub (d :: vis₂)).2) ≤ u := by
                  have h1 : unvisitedCount ts ((findTrace ts f' sub (d :: vis₂)).2) ≤
                      unvisitedCount ts vis₂ := by
                    apply unvisited_mono
                    intro z hz
                    rw [hfr]
                    exact List.mem_append_right _ (List.mem_cons_of_mem d hz)
                  omega
                have hy2 : y ∈ (depLoopT ts (findTrace ts f') rest
                    ((findTrace ts f' sub (d :: vis₂)).2)).1.map (fun z => z.name) :=
                  ihd _ hvmono y hy hyr1
                simp only [List.map_append]
                exact List.mem_append_right _ hy2
      simp only [findTrace] at hx ⊢
      have hres := inner (t.deps.getD []) vis (le_of_eq hu) x hx hxv
      simp only [List.map_append]
      exact List.mem_append_left _ hres

theorem depLoopT_dep_mem (ts : RMakeTargets) (hwf : WFT ts) (f : Nat) :
    ∀ (ds vis : List Str), unvisitedCount ts vis < f →
      ∀ d ∈ ds, (lookupT ts d).isSome → d ∉ vis →
        d ∈ (depLoopT ts (findTrace ts f) ds vis).1.map (fun y => y.name) := by
  intro ds
  induction ds with
  | nil => intro vis _ d hd; simp at hd
  | cons d0 rest ih =>
    intro vis hu d hd hsome hdv
    cases hl : lookupT ts d0 with
    | none =>
      rw [depLoopT_cons_none ts _ d0 rest vis hl]
      rcases List.mem_cons.mp hd with h1 | h1
      · rw [h1, hl] at hsome
        simp at hsome
      · exact ih vis hu d h1 hsome hdv
    | some sub =>
      by_cases hv0 : d0 ∈ vis
      · rw [depLoopT_cons_visited ts _ d0 sub rest vis hl hv0]
        rcases List.mem_cons.mp hd with h1 | h1
        · exact absurd (h1 ▸ hv0) hdv
        · exact ih vis hu d h1 hsome hdv
      · rw [depLoopT_cons_new ts _ d0 sub rest vis hl hv0]
        have hu' : unvisitedCount ts (d0 :: vis) < unvisitedCount ts vis :=
          unvisited_strict ts d0 vis (lookupT_keys ts d0 sub hl) hv0
        have hmemsub : d0 ∈ (findTrace ts f sub (d0 :: vis)).1.map (fun y => y.name) := by
          obtain ⟨f'', hf''⟩ : ∃ f'', f = f'' + 1 := ⟨f - 1, by omega⟩
          exact List.mem_map.mpr ⟨sub, hf'' ▸ findTrace_self_mem ts f'' sub (d0 :: vis),
            lookupT_name ts hwf d0 sub hl⟩
        by_cases hd0 : d = d0
        · subst hd0
          simp only [List.map_append]
          exact List.mem_append_left _ hmemsub
        · rcases List.mem_cons.mp hd with h1 | h1
          · exact absurd h1 hd0
          · by_cases hdr1 : d ∈ (findTrace ts f sub (d0 :: vis)).2
            · have hy1 : d ∈ (findTrace ts f sub (d0 :: vis)).1.map (fun y => y.name) :=
                findTrace_visits_traced ts hwf (unvisitedCount ts (d0 :: vis)) sub
                  (d0 :: vis) f rfl (by omega) d hdr1
                  (by intro hmem
                      rcases List.mem_cons.mp hmem with h2 | h2
                      · exact hd0 h2
                      · exact hdv h2)
              simp only [List.map_append]
              exact List.mem_append_left _ hy1
            · obtain ⟨fr, hfr⟩ := findTrace_growth ts f sub (d0 :: vis)
              have hvmono : unvisitedCount ts ((findTrace ts f sub (d0 :: vis)).2) <
                  f := by
                have h1 : unvisitedCount ts ((findTrace ts f sub (d0 :: vis)).2) ≤
                    unvisitedCount ts vis := by
                  apply unvisited_mono
                  intro z hz
                  rw [hfr]
                  exact List.mem_append_right _ (List.mem_cons_of_mem d0 hz)
                omega
              have hy2 := ih ((findTrace ts f sub (d0 :: vis)).2) hvmono d h1 hsome hdr1
              simp only [List.map_append]
              exact List.mem_append_right _ hy2

theorem depLoopT_reach (ts : RMakeTargets) (hwf : WFT ts) (f : Nat)
    (hIH : ∀ (t : RMakeTarget) (vis : List Str) (x : RMakeTarget),
      x ∈ (findTrace ts f t vis).1 →
      x = t ∨ ∃ d ∈ t.deps.getD [], ∃ sub, lookupT ts d = some sub ∧
        Relation.ReflTransGen (DepStep ts) d x.name) :
    ∀ (ds vis : List Str) (x : RMakeTarget),
      x ∈ (depLoopT ts (findTrace ts f) ds vis).1 →
      ∃ d ∈ ds, ∃ sub, lookupT ts d = some sub ∧
        Relation.ReflTransGen (DepStep ts) d x.name := by
  intro ds
  induction ds with
  | nil => intro vis x hx; simp [depLoopT] at hx
  | cons d0 rest ih =>
    intro vis x hx
    cases hl : lookupT ts d0 with
    | none =>
      rw [depLoopT_cons_none ts _ d0 rest vis hl] at hx
      obtain ⟨d, hd, sub, hsub, hreach⟩ := ih vis x hx
      exact ⟨d, List.mem_cons_of_mem d0 hd, sub, hsub, hreach⟩
    | some sub0 =>
      by_cases hv0 : d0 ∈ vis
      · rw [depLoopT_cons_visited ts _ d0 sub0 rest vis hl hv0] at hx
        obtain ⟨d, hd, sub, hsub, hreach⟩ := ih vis x hx
        exact ⟨d, List.mem_cons_of_mem d0 hd, sub, hsub, hreach⟩
      · rw [depLoopT_cons_new ts _ d0 sub0 rest vis hl hv0] at hx
        rcases List.mem_append.mp hx with h1 | h1
        · rcases hIH sub0 (d0 :: vis) x h1 with h2 | h2
          · refine ⟨d0, List.mem_cons_self d0 rest, sub0, hl, ?_⟩
            rw [h2, lookupT_name ts hwf d0 sub0 hl]
          · obtain ⟨d', hd', sub', hsub', hreach'⟩ := h2
            refine ⟨d0, List.mem_cons_self d0 rest, sub0, hl, ?_⟩
            exact Relation.ReflTransGen.head ⟨sub0, hl, hd'⟩ hreach'
        · obtain ⟨d, hd, sub, hsub, hreach⟩ := ih _ x h1
          exact ⟨d, List.mem_cons_of_mem d0 hd, sub, hsub, hreach⟩

theorem findTrace_reach (ts : RMakeTargets) (hwf : WFT ts) :
    ∀ (f : Nat) (t : RMakeTarget) (vis : List Str) (x : RMakeTarget),
      x ∈ (findTrace ts f t vis).1 →
      x = t ∨ ∃ d ∈ t.deps.getD [], ∃ sub, lookupT ts d = some sub ∧
        Relation.ReflTransGen (DepStep ts) d x.name := by
  intro f
  induction f with
  | zero => intro t vis x hx; simp [findTrace] at hx
  | succ f ih =>
    intro t vis x hx
    simp only [findTrace] at hx
    rcases List.mem_append.mp hx with h1 | h1
    · obtain ⟨d, hd, sub, hsub, hreach⟩ := depLoopT_reach ts hwf f ih _ vis x h1
      exact Or.inr ⟨d, hd, sub, hsub, hreach⟩
    · simp at h1
      exact Or.inl h1

theorem depLoopT_no_self (ts : RMakeTargets) (hwf : WFT ts) (f : Nat) (t : RMakeTarget)
    (vis : List Str) (hself : lookupT ts t.name = some t)
    (hacyc : ¬ Relation.TransGen (DepStep ts) t.name t.name) :
    t.name ∉ (depLoopT ts (findTrace ts f) (t.deps.getD []) vis).1.map (fun y => y.name) := by
  intro hmem
  obtain ⟨x, hx, hxname⟩ := List.mem_map.mp hmem
  obtain ⟨d, hd, sub, hsub, hreach⟩ :=
    depLoopT_reach ts hwf f (findTrace_reach ts hwf f) _ vis x hx
  apply hacyc
  exact Relation.TransGen.head' ⟨t, hself, hd⟩ (hxname ▸ hreach)

theorem splitNl_ne_nil (s : Str) : splitNl s ≠ [] := by
  cases s with
  | nil => simp [splitNl]
  | cons c cs =>
    simp only [splitNl]
    by_cases hc : c = '\n'
    · simp [hc]
    · rw [if_neg hc]
      cases h : splitNl cs <;> simp

theorem from_mapping_cmds_scalar (name : Str) (m : List (YValue × YValue)) (s : Str)
    (t : RMakeTarget) (hs : yLookup m (str "cmd") = some (.str s))
    (h : from_mapping name m = .ok t) : t.cmds = splitNl s := by
  simp only [from_mapping, hs] at h
  simp at h
  rw [← h]

theorem from_mapping_cmds_seq (name : Str) (m : List (YValue × YValue)) (vs : List YValue)
    (t : RMakeTarget) (hs : yLookup m (str "cmd") = some (.seq vs))
    (h : from_mapping name m = .ok t) : t.cmds.length = vs.length := by
  simp only [from_mapping, hs] at h
  cases hm : exceptMap (fun v => match v with
      | YValue.str s => Except.ok s
      | _ => Except.error RErr.cmdNotString) vs with
  | error e => rw [hm] at h; simp at h
  | ok cmds =>
    rw [hm] at h
    simp at h
    rw [← h]
    exact exceptMap_ok_length _ vs cmds hm

theorem extract_badKey : ∀ (pre : List (YValue × YValue)) (k v : YValue)
    (post : List (YValue × YValue)), (∀ kv ∈ pre, entryOk kv) →
    (∀ s, k ≠ YValue.str s) →
    extract_targets_and_variables (pre ++ (k, v) :: post) = .error .badKey := by
  intro pre
  induction pre with
  | nil =>
    intro k v post _ hk
    cases k with
    | str s => exact absurd rfl (hk s)
    | int n => rfl
    | bool b => rfl
    | null => rfl
    | seq xs => rfl
    | map mm => rfl
  | cons kv pre ih =>
    intro k v post hpre hk
    obtain ⟨s, hk1, hmap⟩ := hpre kv (List.mem_cons_self kv pre)
    obtain ⟨k', v'⟩ := kv
    simp only at hk1 hmap
    subst hk1
    have hrec := ih k v post (fun kv2 hkv2 => hpre kv2 (List.mem_cons_of_mem _ hkv2)) hk
    cases v' with
    | map mm =>
      obtain ⟨t, ht⟩ := hmap mm rfl
      simp only [List.cons_append, extract_targets_and_variables, List.append_eq, ht, hrec]
    | str s2 =>
      simp only [List.cons_append, extract_targets_and_variables, List.append_eq, hrec]
    | int n =>
      simp only [List.cons_append, extract_targets_and_variables]
      exact hrec
    | bool b =>
      simp only [List.cons_append, extract_targets_and_variables]
      exact hrec
    | null =>
      simp only [List.cons_append, extract_targets_and_variables]
      exact hrec
    | seq xs =>
      simp only [List.cons_append, extract_targets_and_variables]
      exact hrec

theorem unvisited_le_length (ts : RMakeTargets) (vis : List Str) :
    unvisitedCount ts vis ≤ ts.length := by
  unfold unvisitedCount
  calc (((ts.map Prod.fst).dedup).filter (fun k => decide (k ∉ vis))).length
      ≤ ((ts.map Prod.fst).dedup).length := List.length_filter_le _ _
    _ ≤ (ts.map Prod.fst).length := (List.dedup_sublist _).length_le
    _ = ts.length := List.length_map _ _

/-! ## Claim theorems -/

/-- Claim C1, counterexample: the claim asserts that for the two-target
cyclic build the run of goal `a` emits exactly `["B", "A"]` with `a`'s
body emitted once; the code emits `["A", "B", "A"]` — the goal is never
marked visited, so the cycle re-enters it and its body is emitted
twice. -/
theorem C1_counterexample :
    rmakeRun cycRM (str "a") = .ok [str "A", str "B", str "A"] ∧
    (Except.ok [str "A", str "B", str "A"] : Except RErr (List Str)) ≠
      .ok [str "B", str "A"] := by
  constructor
  · decide
  · decide

/-- Claim C1, amended: each target other than the goal contributes its
command block at most once to the chained list; the goal itself
contributes at most twice (once at the end, plus once more when a cycle
reaches it through its own dependencies).  The emission trace counts
block contributions, and `chain_commands` is exactly the concatenation
of the traced targets' command blocks.  For the two-target cyclic build
`a: {dep: b, cmd: "A"}`, `b: {dep: a, cmd: "B"}`, running goal `a`
emits `["A", "B", "A"]`. -/
theorem C1_at_most_once_amended :
    (∀ ts : RMakeTargets, WFT ts →
       ∀ (fuel : Nat) (t : RMakeTarget) (vis : List Str) (n : Str),
       ((findTrace ts fuel t vis).1.map (fun x => x.name)).count n ≤
         (if n = t.name then 2 else 1)) ∧
    (∀ (rm : RMake) (t : RMakeTarget),
       chain_commands rm t =
         ((findTrace rm.targets (rm.targets.length + 1) t []).1.map
           (fun x => x.cmds)).flatten) ∧
    rmakeRun cycRM (str "a") = .ok [str "A", str "B", str "A"] := by
  refine ⟨?_, ?_, by decide⟩
  · intro ts hwf fuel t vis n
    obtain ⟨fr, _, _, hc⟩ := findTrace_count ts hwf fuel t vis
    have hcn := hc n
    have hfr : (if n ∈ fr then 1 else 0) ≤ 1 := by
      by_cases h2 : n ∈ fr <;> simp [h2]
    by_cases h1 : n = t.name
    · rw [if_pos h1] at hcn ⊢
      omega
    · rw [if_neg h1] at hcn ⊢
      omega
  · intro rm t
    unfold chain_commands
    rw [findVisit_link]

/-- Witness for the amended C1 theorem at the cyclic build: target `b`
is not the goal and its block is counted at most once. -/
theorem C1_witness :
    ((findTrace cycRM.targets 3 tgtCycA []).1.map (fun x => x.name)).count (str "b") ≤
      (if str "b" = tgtCycA.name then 2 else 1) :=
  C1_at_most_once_amended.1 cycRM.targets (by decide) 3 tgtCycA [] (str "b")

/-- Claim C2, counterexample: the claim asserts that after load no
command string contains a `$(NAME)` form naming a defined variable.
With `A: "$"`, `B: "v"` and `t: {cmd: "$(A)(B)"}`, the single match
`$(A)` is replaced by the value `$`, which merges with the following
text `(B)` into a brand-new occurrence `$(B)`, and `B` is a defined
variable — yet the loop is already finished, so `$(B)` survives into
the stored command. -/
theorem C2_counterexample :
    (rmakeNew ctx0 3 c2Root).map (fun rm => rm.targets.map (fun p => p.2.cmds)) =
      .ok [[str "$(B)"]] ∧
    (rmakeNew ctx0 3 c2Root).map (fun rm => rm.varMap) = .ok (some c2Vars) ∧
    hasResolvableB (some c2Vars) (str "$(B)") = true := by
  refine ⟨by decide, by decide, by decide⟩

/-- Claim C2, amended: expansion closure holds provided no replacement
can introduce a new `$(` lexeme: when every variable value, every
consulted environment value and every shell output is free of the
dollar sign, and every dollar sign of each stored command opens a
well-formed `$(BODY)` occurrence, then after expansion the command
contains no dollar sign at all — in particular no `$(NAME)` form whose
single-word `NAME` is a defined variable. -/
theorem C2_expansion_closure_amended :
    ∀ (ctx : Ctx) (vars : Option RMakeVariables) (fuel : Nat) (t t' : RMakeTarget),
      CleanCtx ctx → CleanVars vars → (∀ c ∈ t.cmds, GoodD c) →
      expand_commands ctx vars fuel t = .ok t' →
      ∀ c' ∈ t'.cmds, noDollar c' ∧ hasResolvableB vars c' = false :=
  fun ctx vars fuel t t' hctx hvars hcmds h =>
    expand_commands_noDollar ctx vars fuel t t' hctx hvars hcmds h

/-- Witness for the amended C2 theorem on a concrete clean build. -/
theorem C2_witness :
    noDollar (str "gcc main.c") ∧
    hasResolvableB (some [(str "CC", str "gcc")]) (str "gcc main.c") = false := by
  have hgood : GoodD (str "$(CC) main.c") := by
    have he : str "$(CC) main.c" =
        [] ++ '$' :: '(' :: (str "CC" ++ ')' :: str " main.c") := by decide
    rw [he]
    exact GoodD.seg (by decide) (by decide) (by decide) (GoodD.free (by decide))
  have h := C2_expansion_closure_amended ctx0 (some [(str "CC", str "gcc")]) 2
    { name := str "t", deps := none, cmds := [str "$(CC) main.c"] }
    { name := str "t", deps := none, cmds := [str "gcc main.c"] }
    (by constructor
        · intro n v hv
          simp [ctx0] at hv
        · intro p a o ho
          simp [ctx0] at ho)
    (by intro vs hvs p hp
        have hv2 : [(str "CC", str "gcc")] = vs := by injection hvs
        subst hv2
        have hp2 : p = (str "CC", str "gcc") := by simpa using hp
        rw [hp2]
        decide)
    (by intro c hc
        simp at hc
        rw [hc]
        exact hgood)
    (by decide)
  exact h (str "gcc main.c") (by simp)

/-- Claim C3: a `$(shell …)` body with words `shell p w₃ … wₙ` runs
program `p` with arguments `w₃ … wₙ₋₁` — the final word is dropped and
never passed — and the computed replacement is the captured standard
output; failure to spawn (or decode) the child is fatal.  With exactly
two words the program runs with no arguments. -/
theorem C3_shell_meta :
    (∀ (ctx : Ctx) (vars : Option RMakeVariables) (recur : Str → Except RErr Str)
       (body p : Str) (mid : List Str) (lastw : Str),
       splitWs body = str "shell" :: p :: (mid ++ [lastw]) →
       farBody ctx vars recur body =
         (match ctx.shell p mid with
          | some out => .ok out
          | none => .error .shellFail)) ∧
    (∀ (ctx : Ctx) (vars : Option RMakeVariables) (recur : Str → Except RErr Str)
       (body p : Str), splitWs body = [str "shell", p] →
       farBody ctx vars recur body =
         (match ctx.shell p [] with
          | some out => .ok out
          | none => .error .shellFail)) := by
  constructor
  · intro ctx vars recur body p mid lastw hsplit
    simp [farBody, hsplit, List.dropLast_concat]
  · intro ctx vars recur body p hsplit
    simp [farBody, hsplit]

/-- Witness for C3: `$(shell ls -a junk)` runs `ls -a`, drops `junk`,
and the replacement is the captured output. -/
theorem C3_witness :
    farBody ctxEcho none (fun s => Except.ok s) (str "shell ls -a junk") =
      .ok (str "OUT") := by
  have h := C3_shell_meta.1 ctxEcho none (fun s => Except.ok s) (str "shell ls -a junk")
    (str "ls") [str "-a"] (str "junk") (by decide)
  rw [h]
  decide

/-- Claim C5: a single-word body naming a defined variable is replaced
by the variable's value recursively expanded by the same algorithm over
the same variable set; concretely, with `CC: "gcc"`,
`FLAGS: "-O2 $(EXTRA)"`, `EXTRA: "-g"`, the command
`$(CC) $(FLAGS) main.c` expands to `gcc -O2 -g main.c` after load. -/
theorem C5_variable_expansion :
    (∀ (ctx : Ctx) (vs : RMakeVariables) (fuel : Nat) (body w v : Str),
       splitWs body = [w] → lookupV vs w = some v →
       farBody ctx (some vs) (find_and_replace ctx (some vs) fuel) body =
         find_and_replace ctx (some vs) fuel v) ∧
    (rmakeNew ctx0 5 s4Root).map (fun rm => rm.targets.map (fun p => p.2.cmds)) =
      .ok [[str "gcc -O2 -g main.c"]] := by
  refine ⟨?_, by decide⟩
  intro ctx vs fuel body w v hsplit hlook
  simp only [farBody, hsplit, hlook]

/-- Witness for C5 at a concrete variable set. -/
theorem C5_witness :
    farBody ctx0 (some [(str "X", str "-g")])
        (find_and_replace ctx0 (some [(str "X", str "-g")]) 1) (str " X ") =
      find_and_replace ctx0 (some [(str "X", str "-g")]) 1 (str "-g") :=
  C5_variable_expansion.1 ctx0 [(str "X", str "-g")] 1 (str " X ") (str "X") (str "-g")
    (by decide) (by decide)

/-- Claim C6: a single-word body that is not a defined variable falls
back to the environment — the computed replacement is the environment
value itself, not re-expanded — and when the environment does not
define the name either, the replacement is the empty string;
concretely, with no variables and `HOME=/u/x` in the environment,
`cd $(HOME)` becomes `cd /u/x` after load. -/
theorem C6_env_fallback :
    (∀ (ctx : Ctx) (vars : Option RMakeVariables) (recur : Str → Except RErr Str)
       (body w : Str), splitWs body = [w] →
       (vars = none ∨ ∃ vs, vars = some vs ∧ lookupV vs w = none) →
       (∀ e, ctx.env w = some e → farBody ctx vars recur body = .ok e) ∧
       (ctx.env w = none → farBody ctx vars recur body = .ok [])) ∧
    (rmakeNew ctxHome 3 s5Root).map (fun rm => rm.targets.map (fun p => p.2.cmds)) =
      .ok [[str "cd /u/x"]] := by
  refine ⟨?_, by decide⟩
  intro ctx vars recur body w hsplit hmiss
  constructor
  · intro e he
    rcases hmiss with h | ⟨vs, hvs, hl⟩
    · subst h
      simp only [farBody, hsplit]
      simp [envOr, he]
    · subst hvs
      simp only [farBody, hsplit, hl]
      simp [envOr, he]
  · intro he
    rcases hmiss with h | ⟨vs, hvs, hl⟩
    · subst h
      simp only [farBody, hsplit]
      simp [envOr, he]
    · subst hvs
      simp only [farBody, hsplit, hl]
      simp [envOr, he]

/-- Witness for C6: the environment value is the replacement when the
name is defined there, and the empty string otherwise. -/
theorem C6_witness :
    farBody ctxHome none (fun s => Except.ok s) (str "HOME") = .ok (str "/u/x") ∧
    farBody ctxHome none (fun s => Except.ok s) (str "NOPE") = .ok [] := by
  constructor
  · exact (C6_env_fallback.1 ctxHome none (fun s => Except.ok s) (str "HOME")
      (str "HOME") (by decide) (Or.inl rfl)).1 (str "/u/x") (by decide)
  · exact (C6_env_fallback.1 ctxHome none (fun s => Except.ok s) (str "NOPE")
      (str "NOPE") (by decide) (Or.inl rfl)).2 (by decide)

/-- Claim C7, counterexample: the claim asserts that the keyword
`wildcard` warns and yields the empty string; in the code the
recognized keyword is the misspelled `whildcard`, and `wildcard` hits
the fatal unknown-meta error. -/
theorem C7_counterexample :
    farBody ctx0 none (fun s => Except.ok s) (str "wildcard src") =
      .error (.unknownMeta (str "wildcard")) := by
  decide

/-- Claim C7, amended: in a multi-word body whose first word is not
`shell`, the keyword `whildcard` (as spelled in the source) warns and
yields the empty replacement, and any other first word — including the
canonical spelling `wildcard` — is the fatal unknown-meta error. -/
theorem C7_meta_dispatch_amended :
    ∀ (ctx : Ctx) (vars : Option RMakeVariables) (recur : Str → Except RErr Str)
      (body w p : Str) (rest : List Str),
      splitWs body = w :: p :: rest → w ≠ str "shell" →
      (w = str "whildcard" → farBody ctx vars recur body = .ok []) ∧
      (w ≠ str "whildcard" → farBody ctx vars recur body = .error (.unknownMeta w)) := by
  intro ctx vars recur body w p rest hsplit hshell
  constructor
  · intro hw
    simp only [farBody, hsplit]
    rw [if_neg hshell, if_pos hw]
  · intro hw
    simp only [farBody, hsplit]
    rw [if_neg hshell, if_neg hw]

/-- Witness for the amended C7 theorem. -/
theorem C7_witness :
    farBody ctx0 none (fun s => Except.ok s) (str "whildcard src") = .ok [] ∧
    farBody ctx0 none (fun s => Except.ok s) (str "frob x") =
      .error (.unknownMeta (str "frob")) := by
  constructor
  · exact (C7_meta_dispatch_amended ctx0 none (fun s => Except.ok s)
      (str "whildcard src") (str "whildcard") (str "src") [] (by decide) (by decide)).1 rfl
  · exact (C7_meta_dispatch_amended ctx0 none (fun s => Except.ok s)
      (str "frob x") (str "frob") (str "x") [] (by decide) (by decide)).2 (by decide)

/-- Claim C8, counterexample: the claim asserts that every accepted
target has at least one command; a target whose `cmd` value is the
empty sequence is accepted by the parser and gets an empty command
list. -/
theorem C8_counterexample :
    from_mapping (str "t") [(YValue.str (str "cmd"), YValue.seq [])] =
      .ok { name := str "t", deps := none, cmds := [] } := by
  decide

/-- Claim C8, amended: an accepted target's command list is non-empty
whenever `cmd` is a string scalar (splitting on newlines always yields
at least one piece), and has exactly the sequence's length when `cmd`
is a sequence — so an empty `cmd` sequence, and only such a sequence,
produces an empty command list. -/
theorem C8_cmds_amended :
    (∀ (name : Str) (m : List (YValue × YValue)) (s : Str) (t : RMakeTarget),
       yLookup m (str "cmd") = some (.str s) → from_mapping name m = .ok t →
       t.cmds ≠ []) ∧
    (∀ (name : Str) (m : List (YValue × YValue)) (vs : List YValue) (t : RMakeTarget),
       yLookup m (str "cmd") = some (.seq vs) → from_mapping name m = .ok t →
       t.cmds.length = vs.length) := by
  constructor
  · intro name m s t hs h
    rw [from_mapping_cmds_scalar name m s t hs h]
    exact splitNl_ne_nil s
  · intro name m vs t hs h
    exact from_mapping_cmds_seq name m vs t hs h

/-- Witness for the amended C8 theorem: a block scalar with one newline
parses to two commands, a non-empty list. -/
theorem C8_witness :
    ({ name := str "t", deps := none,
       cmds := [str "a", str "b"] } : RMakeTarget).cmds ≠ [] :=
  C8_cmds_amended.1 (str "t") [(YValue.str (str "cmd"), YValue.str (str "a\nb"))]
    (str "a\nb") { name := str "t", deps := none, cmds := [str "a", str "b"] }
    (by rfl) (by decide)

/-- Claim C9, counterexample: the claim asserts the resolver visits
each target at most once; in the two-target cyclic build the goal `a`
is visited (and its block emitted) twice. -/
theorem C9_counterexample :
    ((findTrace cycRM.targets 3 tgtCycA []).1.map (fun x => x.name)).count (str "a") = 2 ∧
    (chain_commands cycRM tgtCycA).count (str "A") = 2 := by
  constructor
  · decide
  · decide

/-- Claim C9, amended: `chain_commands` terminates on every Build and
goal, cycles included — in the fuel embedding, the result of `find` is
independent of the fuel once it exceeds the number of unvisited target
names, so the recursion always bottoms out; edges into already-visited
targets are dropped, each non-goal target is visited at most once and
the goal at most twice. -/
theorem C9_termination_amended :
    (∀ (ts : RMakeTargets) (t : RMakeTarget) (vis : List Str) (f g : Nat),
       unvisitedCount ts vis < f → unvisitedCount ts vis < g →
       findVisit ts f t vis = findVisit ts g t vis) ∧
    (∀ (rm : RMake) (t : RMakeTarget) (f : Nat), rm.targets.length < f →
       (findVisit rm.targets f t []).1 = chain_commands rm t) := by
  constructor
  · intro ts t vis f g hf hg
    exact findVisit_congr ts (unvisitedCount ts vis) t vis f g rfl hf hg
  · intro rm t f hf
    unfold chain_commands
    rw [findVisit_congr rm.targets (unvisitedCount rm.targets []) t [] f
      (rm.targets.length + 1) rfl
      (by have := unvisited_le_length rm.targets []; omega)
      (by have := unvisited_le_length rm.targets []; omega)]

/-- Witness for the amended C9 theorem: on the cyclic build any two
sufficient fuels agree. -/
theorem C9_witness :
    findVisit cycRM.targets 3 tgtCycA [] = findVisit cycRM.targets 17 tgtCycA [] :=
  C9_termination_amended.1 cycRM.targets tgtCycA [] 3 17 (by decide) (by decide)

/-- Claim C4: for builds reached without a dependency cycle back to the
visited target, `chain_commands` emits in deterministic post-order with
left-to-right dependency order: at every call of `find` the visited
target's own block is the final block, any dependency of it that exists
and is fresh is emitted strictly inside the earlier part (given enough
fuel, which `chain_commands` always supplies), and when no dependency
cycle reaches the target back, none of its commands occur in that
earlier part; concretely, the diamond build run at goal `d` emits
`["A", "B", "C", "D"]` with `A` once. -/
theorem C4_post_order :
    (∀ ts : RMakeTargets, WFT ts → ∀ (fuel : Nat) (t : RMakeTarget) (vis : List Str),
       ∃ pre vis',
         findTrace ts (fuel + 1) t vis = (pre ++ [t], vis') ∧
         findVisit ts (fuel + 1) t vis =
           ((pre.map (fun x => x.cmds)).flatten ++ t.cmds, vis') ∧
         (∀ d ∈ t.deps.getD [], (lookupT ts d).isSome → d ∉ vis →
            unvisitedCount ts vis < fuel → d ∈ pre.map (fun x => x.name)) ∧
         (lookupT ts t.name = some t → ¬ Relation.TransGen (DepStep ts) t.name t.name →
            t.name ∉ pre.map (fun x => x.name))) ∧
    rmakeRun dmdRM (str "d") = .ok [str "A", str "B", str "C", str "D"] := by
  refine ⟨?_, by decide⟩
  intro ts hwf fuel t vis
  refine ⟨(depLoopT ts (findTrace ts fuel) (t.deps.getD []) vis).1,
    (depLoopT ts (findTrace ts fuel) (t.deps.getD []) vis).2, ?_, ?_, ?_, ?_⟩
  · simp [findTrace]
  · rw [findVisit_link]
    simp [findTrace, List.flatten_append]
  · intro d hd hsome hdv hu
    exact depLoopT_dep_mem ts hwf fuel (t.deps.getD []) vis hu d hd hsome hdv
  · intro hself hacyc
    exact depLoopT_no_self ts hwf fuel t vis hself hacyc

/-- Witness for C4 at the diamond build and its goal `d`. -/
theorem C4_witness :
    (∃ pre vis', findTrace dmdRM.targets (4 + 1) tgtDmdD [] = (pre ++ [tgtDmdD], vis') ∧
      ∀ d ∈ tgtDmdD.deps.getD [], (lookupT dmdRM.targets d).isSome →
        d ∉ ([] : List Str) → unvisitedCount dmdRM.targets [] < 4 →
        d ∈ pre.map (fun x => x.name)) ∧
    rmakeRun dmdRM (str "d") = .ok [str "A", str "B", str "C", str "D"] := by
  constructor
  · obtain ⟨pre, vis', h1, _, h3, _⟩ :=
      C4_post_order.1 dmdRM.targets (by decide) 4 tgtDmdD []
    exact ⟨pre, vis', h1, h3⟩
  · exact C4_post_order.2

/-- Claim C10, counterexample: the claim asserts that any root mapping
containing a non-string key panics at the key unwrap; when an earlier
entry is a malformed target, loading aborts first with that entry's
fatal error instead of the key panic. -/
theorem C10_counterexample :
    rmakeNew ctx0 1 c10Root = .error .missingCmd ∧
    RErr.missingCmd ≠ RErr.badKey := by
  constructor
  · decide
  · decide

/-- Claim C10, amended: a root mapping containing a non-string key
never produces a Build — when every entry preceding the offending key
is acceptable (string key, and any target value parses), extraction and
loading fail precisely with the key-unwrap panic, even though
extraction dispatches only on the shape of each entry's value. -/
theorem C10_nonstring_key_amended :
    ∀ (pre : List (YValue × YValue)) (k v : YValue) (post : List (YValue × YValue))
      (ctx : Ctx) (fuel : Nat),
      (∀ kv ∈ pre, entryOk kv) → (∀ s, k ≠ YValue.str s) →
      extract_targets_and_variables (pre ++ (k, v) :: post) = .error .badKey ∧
      rmakeNew ctx fuel (.map (pre ++ (k, v) :: post)) = .error .badKey := by
  intro pre k v post ctx fuel hpre hk
  have h := extract_badKey pre k v post hpre hk
  exact ⟨h, by simp [rmakeNew, h]⟩

/-- Witness for the amended C10 theorem: a boolean key in an otherwise
empty root mapping panics. -/
theorem C10_witness :
    extract_targets_and_variables [(YValue.int 7, YValue.str (str "x"))] =
      .error .badKey :=
  (C10_nonstring_key_amended [] (YValue.int 7) (YValue.str (str "x")) [] ctx0 1
    (by intro kv hkv; simp at hkv) (fun s h => YValue.noConfusion h)).1

/-! ## Concrete sanity checks of the embedding -/

example : findFirst (str "$(CC) main.c") = some ([], str "CC", str " main.c") := by decide
example : findFirst (str "no match here") = none := by decide
example : findFirst (str "$() $(A)") = some (str "$() ", str "A", []) := by decide
example : findFirst (str "a $(x b") = none := by decide
example : findIter (str "$(CC) $(FLAGS) main.c") = [str "CC", str "FLAGS"] := by decide
example : splitWs (str "  shell  ls  -la ") = [str "shell", str "ls", str "-la"] := by decide
example : splitNl (str "echo 1\necho 2") = [str "echo 1", str "echo 2"] := by decide
example : splitNl (str "line\n") = [str "line", []] := by decide
example : replaceFirst (str "cd $(HOME)") (str "/u/x") = str "cd /u/x" := by decide
example : replaceFirst (str "x $(A) y") (str "$$") = str "x $ y" := by decide
example : replaceFirst (str "x $(AB) y") (str "$1") = str "x AB y" := by decide
example : replaceFirst (str "x $(AB) y") (str "$0") = str "x $(AB) y" := by decide
example : rmakeNew ctx0 2 cycRoot = .ok cycRM := by decide
example : rmakeRun cycRM (str "a") = .ok [str "A", str "B", str "A"] := by decide
example : rmakeRun dmdRM (str "d") = .ok [str "A", str "B", str "C", str "D"] := by decide
example : rmakeRun dmdRM (str "x") = .error .noRule := by decide
example :
    (rmakeNew ctx0 5 s4Root).map (fun rm => rm.targets.map (fun p => p.2.cmds)) =
      .ok [[str "gcc -O2 -g main.c"]] := by decide
example :
    (rmakeNew ctxHome 3 s5Root).map (fun rm => rm.targets.map (fun p => p.2.cmds)) =
      .ok [[str "cd /u/x"]] := by decide
example : splitWs (str "shell ls -a x") = [str "shell", str "ls", str "-a", str "x"] := by decide
example :
    farBody ctx0 none (fun _ => .ok []) (str "wildcard src") =
      .error (.unknownMeta (str "wildcard")) := by decide
example : farBody ctx0 none (fun _ => .ok []) (str "whildcard src") = .ok [] := by decide
